import Mathlib

/-!
Shallow embedding of `src/lib/openings-dag.ts` from the chess-openings
repository.

JavaScript plain objects used as string-keyed dictionaries
(`Record<string, DAGNode>`, `Record<string, string>`) are modelled as
association lists in insertion order: reading `obj[k]` is `olookup k l`,
and the assignment `obj[k] = v` is `oset l k v`, which overwrites an
existing entry in place or appends a fresh one at the end (matching
JavaScript property insertion order for non-numeric string keys).

The external rules engine (chess.js) is not part of the repository; the
core treats positions as opaque canonical strings and only consumes a
deterministic `move` operation and the standard starting position.  It is
modelled as a `RulesEngine` structure with a `startFen` and a pure
`step : fen → move → Option fen` (`none` signals an illegal move, the
falsy `moveResult` of the source).
-/

namespace ChessOpenings

/-- Read `obj[k]` of a JavaScript object modelled as an association list. -/
def olookup {α : Type} (k : String) : List (String × α) → Option α
  | [] => none
  | (k', v) :: rest => if k' = k then some v else olookup k rest

/-- Write `obj[k] = v`: overwrite an existing entry in place, else append. -/
def oset {α : Type} : List (String × α) → String → α → List (String × α)
  | [], k, v => [(k, v)]
  | (k', v') :: rest, k, v =>
    if k' = k then (k, v) :: rest else (k', v') :: oset rest k v

/-- JavaScript truthiness test on `fenToLineName[fen]`: `undefined` and the
empty string are falsy. -/
def falsy : Option String → Bool
  | none => true
  | some s => s = ""

/-- Structure `DAGNode` from the source: one position with its outgoing moves
(`moves[move] = childFen`). -/
structure DAGNode where
  fen : String
  moves : List (String × String)
  deriving DecidableEq

/-- The state of a `ChessOpeningDAG` instance: the `nodes` dictionary and the
`fenToLineName` dictionary.  The `chess` member is the external engine,
passed explicitly to the operations below. -/
structure ChessOpeningDAG where
  nodes : List (String × DAGNode)
  fenToLineName : List (String × String)
  deriving DecidableEq

/-- The external rules engine: a starting position and a deterministic
`move` operation (`none` = illegal move). -/
structure RulesEngine where
  startFen : String
  step : String → String → Option String

/-- Type `Line` from the source. -/
structure Line where
  name : String
  moves : List String
  deriving DecidableEq

/-- The data carried by the `Error` thrown on an invalid move:
`Invalid move '<move>' from FEN: <fen>`. -/
structure InvalidMoveError where
  move : String
  fen : String
  deriving DecidableEq

/-- Source: `if (!this.nodes[fen]) this.nodes[fen] = new DAGNode(fen)`. -/
def ensureNode (nodes : List (String × DAGNode)) (f : String) :
    List (String × DAGNode) :=
  match olookup f nodes with
  | some _ => nodes
  | none => oset nodes f ⟨f, []⟩

/-- Source: `const node = this.nodes[currentFen]; if (node) node.moves[move] = childFen`. -/
def linkMove (nodes : List (String × DAGNode)) (f m c : String) :
    List (String × DAGNode) :=
  match olookup f nodes with
  | some node => oset nodes f ⟨node.fen, oset node.moves m c⟩
  | none => nodes

/-- Source: `if (!this.fenToLineName[childFen]) this.fenToLineName[childFen] = lineName`. -/
def setLabelIfFalsy (labels : List (String × String)) (c n : String) :
    List (String × String) :=
  if falsy (olookup c labels) then oset labels c n else labels

/-- One iteration of the loop body of `addLine` after a legal move `m` from
`f` yielding `c`, for a line named `n`. -/
def ingestStep (G : ChessOpeningDAG) (f m c n : String) : ChessOpeningDAG :=
  { nodes := linkMove (ensureNode G.nodes c) f m c,
    fenToLineName := setLabelIfFalsy G.fenToLineName c n }

/-- The `for (const move of movesArray)` loop of `addLine`, starting at
position `f`.  The thrown exception is modelled by returning the mutated
state together with `some` error (JavaScript mutations before the throw
persist). -/
def addLineGo (E : RulesEngine) (n : String) :
    ChessOpeningDAG → String → List String →
    ChessOpeningDAG × Option InvalidMoveError
  | G, _, [] => (G, none)
  | G, f, m :: ms =>
    match E.step f m with
    | none => (G, some ⟨m, f⟩)
    | some c => addLineGo E n (ingestStep G f m c n) c ms

/-- Operation `addLine(movesArray, lineName)`: reset the engine to the start, ensure
the root node, then run the loop. -/
def addLine (E : RulesEngine) (G : ChessOpeningDAG) (movesArray : List String)
    (lineName : String) : ChessOpeningDAG × Option InvalidMoveError :=
  addLineGo E lineName ⟨ensureNode G.nodes E.startFen, G.fenToLineName⟩
    E.startFen movesArray

/-- Operation `addLines(lines)`: add each line in order; a thrown error aborts the
loop, keeping the state mutated so far. -/
def addLines (E : RulesEngine) :
    ChessOpeningDAG → List Line → ChessOpeningDAG × Option InvalidMoveError
  | G, [] => (G, none)
  | G, l :: ls =>
    match addLine E G l.moves l.name with
    | (G', none) => addLines E G' ls
    | (G', some e) => (G', some e)

/-- The constructor of `ChessOpeningDAG`: one root node for the starting
position, labelled `"Root"`. -/
def initDag (E : RulesEngine) : ChessOpeningDAG :=
  { nodes := oset [] E.startFen ⟨E.startFen, []⟩,
    fenToLineName := oset [] E.startFen "Root" }

/-- Query `getNextMoves(fen)`: `Object.keys(node.moves)`, or `[]` when the node is
missing. -/
def getNextMoves (G : ChessOpeningDAG) (fen : String) : List String :=
  match olookup fen G.nodes with
  | none => []
  | some node => node.moves.map Prod.fst

/-- Query `getRandomMove(fen)` with the draw of `Math.random()` made explicit as a
rational `r` (in real runs `0 ≤ r < 1`): the index is
`Math.floor(r * moves.length)`.  The source's `const moves = …` binding is
inlined (`getNextMoves` is pure). -/
def getRandomMove (G : ChessOpeningDAG) (fen : String) (r : ℚ) : Option String :=
  if (getNextMoves G fen).length = 0 then none
  else (getNextMoves G fen)[(Int.toNat ⌊r * ((getNextMoves G fen).length : ℚ)⌋)]?

/-- Query `getCurrentLineName(fen)` (the spec's `getLineLabel`): a plain dictionary
read, `undefined` becoming `none`. -/
def getCurrentLineName (G : ChessOpeningDAG) (fen : String) : Option String :=
  olookup fen G.fenToLineName

/-- The target of the edge labelled `m` out of the node for `f`, if any. -/
def edgeTarget (G : ChessOpeningDAG) (f m : String) : Option String :=
  match olookup f G.nodes with
  | none => none
  | some node => olookup m node.moves

/-- The successive positions produced by the engine while replaying `ms`
from `f` (cut short at the first illegal move). -/
def pathFens (E : RulesEngine) : String → List String → List String
  | _, [] => []
  | f, m :: ms =>
    match E.step f m with
    | none => []
    | some c => c :: pathFens E c ms

/-- The continuation moves a line `ms` (replayed from `f`) plays from the
position `p`: the moves paired with an occurrence of `p` along the path. -/
def contsAt (E : RulesEngine) (p f : String) (ms : List String) : List String :=
  ((f :: pathFens E f ms).zip ms).filterMap
    (fun q => if q.1 = p then some q.2 else none)

/-- A line is faithfully replayable through the graph: each move is offered
by `getNextMoves` at the current position and its edge leads to the position
the engine produces. -/
def replayOk (E : RulesEngine) (G : ChessOpeningDAG) :
    String → List String → Bool
  | _, [] => true
  | f, m :: ms =>
    match E.step f m with
    | none => false
    | some c =>
      (getNextMoves G f).contains m &&
      decide (edgeTarget G f m = some c) &&
      replayOk E G c ms

/-! ### Basic dictionary lemmas -/

@[simp]
theorem olookup_nil {α : Type} (k : String) : olookup k ([] : List (String × α)) = none := rfl

theorem olookup_oset_self {α : Type} (l : List (String × α)) (k : String) (v : α) :
    olookup k (oset l k v) = some v := by
  induction l with
  | nil => simp [oset, olookup]
  | cons p rest ih =>
    obtain ⟨k', v'⟩ := p
    by_cases h : k' = k <;> simp [oset, olookup, h, ih]

theorem olookup_oset_of_ne {α : Type} (l : List (String × α)) (k k' : String) (v : α)
    (h : k' ≠ k) : olookup k' (oset l k v) = olookup k' l := by
  induction l with
  | nil => simp [oset, olookup, Ne.symm h]
  | cons p rest ih =>
    obtain ⟨a, b⟩ := p
    by_cases ha : a = k
    · subst ha
      simp [oset, olookup, Ne.symm h]
    · simp [oset, olookup, ha, ih]

theorem oset_of_olookup_eq {α : Type} (l : List (String × α)) (k : String) (v : α)
    (h : olookup k l = some v) : oset l k v = l := by
  induction l with
  | nil => simp [olookup] at h
  | cons p rest ih =>
    obtain ⟨a, b⟩ := p
    by_cases ha : a = k
    · subst ha
      simp [olookup] at h
      simp [oset, h]
    · simp [olookup, ha] at h
      simp [oset, ha, ih h]

theorem olookup_isSome_oset {α : Type} (l : List (String × α)) (k k' : String) (v : α)
    (h : olookup k' l ≠ none) : olookup k' (oset l k v) ≠ none := by
  by_cases hk : k' = k
  · subst hk
    simp [olookup_oset_self]
  · rw [olookup_oset_of_ne l k k' v hk]
    exact h

theorem mem_map_fst_iff_olookup {α : Type} (l : List (String × α)) (k : String) :
    k ∈ l.map Prod.fst ↔ olookup k l ≠ none := by
  induction l with
  | nil => simp [olookup]
  | cons p rest ih =>
    obtain ⟨a, b⟩ := p
    by_cases ha : a = k
    · subst ha
      simp [olookup]
    · simp [olookup, ha, ih, Ne.symm ha]

/-! ### Well-formedness invariants

Every node is stored under its own `fen`, and every recorded edge agrees
with the (deterministic) rules engine.  Both hold for every graph the
source can ever build. -/

def NodesWf (G : ChessOpeningDAG) : Prop :=
  ∀ f node, olookup f G.nodes = some node → node.fen = f

def EdgesWf (E : RulesEngine) (G : ChessOpeningDAG) : Prop :=
  ∀ f node m c, olookup f G.nodes = some node →
    olookup m node.moves = some c → E.step f m = some c

def Wf (E : RulesEngine) (G : ChessOpeningDAG) : Prop :=
  NodesWf G ∧ EdgesWf E G

theorem initDag_wf (E : RulesEngine) : Wf E (initDag E) := by
  constructor
  · intro f node h
    simp only [initDag, oset, olookup] at h
    split at h
    · cases h; simpa using (by assumption : E.startFen = f)
    · cases h
  · intro f node m c hf hm
    simp only [initDag, oset, olookup] at hf
    split at hf
    · cases hf; simp [olookup] at hm
    · cases hf

/-! ### Lemmas about the three mutation helpers -/

theorem ensureNode_lookup (nodes : List (String × DAGNode)) (c p : String) :
    olookup p (ensureNode nodes c) = olookup p nodes ∨
      (olookup p nodes = none ∧ p = c ∧
        olookup p (ensureNode nodes c) = some ⟨c, []⟩) := by
  unfold ensureNode
  cases h : olookup c nodes with
  | some node => left; rfl
  | none =>
    by_cases hp : p = c
    · subst hp
      right
      exact ⟨h, rfl, olookup_oset_self _ _ _⟩
    · left
      exact olookup_oset_of_ne _ _ _ _ hp

theorem ensureNode_preserves (nodes : List (String × DAGNode)) (c p : String)
    (node : DAGNode) (h : olookup p nodes = some node) :
    olookup p (ensureNode nodes c) = some node := by
  rcases ensureNode_lookup nodes c p with heq | ⟨hn, _, _⟩
  · rw [heq, h]
  · rw [hn] at h; cases h

theorem ensureNode_present (nodes : List (String × DAGNode)) (c : String) :
    olookup c (ensureNode nodes c) ≠ none := by
  rcases ensureNode_lookup nodes c c with heq | ⟨_, _, hsome⟩
  · rw [heq]
    unfold ensureNode at heq
    cases h : olookup c nodes with
    | some node => simp [h]
    | none => rw [h] at heq; rw [olookup_oset_self] at heq; cases heq
  · rw [hsome]; simp

theorem ensureNode_isSome (nodes : List (String × DAGNode)) (c p : String)
    (h : olookup p nodes ≠ none) : olookup p (ensureNode nodes c) ≠ none := by
  rcases ensureNode_lookup nodes c p with heq | ⟨hn, _, hsome⟩
  · rw [heq]; exact h
  · rw [hsome]; simp

theorem linkMove_lookup_ne (nodes : List (String × DAGNode)) (f m c p : String)
    (h : p ≠ f) : olookup p (linkMove nodes f m c) = olookup p nodes := by
  unfold linkMove
  cases hf : olookup f nodes with
  | none => rfl
  | some node => exact olookup_oset_of_ne _ _ _ _ h

theorem linkMove_lookup_self (nodes : List (String × DAGNode)) (f m c : String)
    (node : DAGNode) (h : olookup f nodes = some node) :
    olookup f (linkMove nodes f m c) = some ⟨node.fen, oset node.moves m c⟩ := by
  unfold linkMove
  rw [h]
  exact olookup_oset_self _ _ _

theorem linkMove_isSome (nodes : List (String × DAGNode)) (f m c p : String)
    (h : olookup p nodes ≠ none) : olookup p (linkMove nodes f m c) ≠ none := by
  by_cases hp : p = f
  · subst hp
    cases hf : olookup p nodes with
    | none => exact absurd hf h
    | some node => rw [linkMove_lookup_self nodes p m c node hf]; simp
  · rw [linkMove_lookup_ne nodes f m c p hp]; exact h

theorem setLabelIfFalsy_lookup_ne (labels : List (String × String)) (c n p : String)
    (h : p ≠ c) : olookup p (setLabelIfFalsy labels c n) = olookup p labels := by
  unfold setLabelIfFalsy
  split
  · exact olookup_oset_of_ne _ _ _ _ h
  · rfl

theorem setLabelIfFalsy_nonempty (labels : List (String × String)) (c n p ℓ : String)
    (h : olookup p labels = some ℓ) (hne : ℓ ≠ "") :
    olookup p (setLabelIfFalsy labels c n) = some ℓ := by
  by_cases hp : p = c
  · subst hp
    unfold setLabelIfFalsy
    rw [h]
    simp only [falsy, decide_eq_true_eq, if_neg (by simpa using hne)]
    exact h
  · rw [setLabelIfFalsy_lookup_ne labels c n p hp]; exact h

theorem setLabelIfFalsy_isSome (labels : List (String × String)) (c n p : String)
    (h : olookup p labels ≠ none) :
    olookup p (setLabelIfFalsy labels c n) ≠ none := by
  unfold setLabelIfFalsy
  split
  · exact olookup_isSome_oset _ _ _ _ h
  · exact h

theorem setLabelIfFalsy_self (labels : List (String × String)) (c n : String) :
    olookup c (setLabelIfFalsy labels c n) =
      if falsy (olookup c labels) then some n else olookup c labels := by
  unfold setLabelIfFalsy
  split
  · simp_all [olookup_oset_self]
  · simp_all

theorem mem_getNextMoves_iff (G : ChessOpeningDAG) (f m : String) :
    m ∈ getNextMoves G f ↔ edgeTarget G f m ≠ none := by
  unfold getNextMoves edgeTarget
  cases h : olookup f G.nodes with
  | none => simp
  | some node => exact mem_map_fst_iff_olookup node.moves m

theorem ensureNode_fen (G : ChessOpeningDAG) (c p : String) (node : DAGNode)
    (hn : NodesWf G) (h : olookup p (ensureNode G.nodes c) = some node) :
    node.fen = p := by
  rcases ensureNode_lookup G.nodes c p with heq | ⟨_, hpc, hsome⟩
  · rw [heq] at h; exact hn p node h
  · rw [hsome] at h; cases h; exact hpc.symm

theorem ensureNode_edges (E : RulesEngine) (G : ChessOpeningDAG) (c : String)
    (he : EdgesWf E G) :
    ∀ p node m' c', olookup p (ensureNode G.nodes c) = some node →
      olookup m' node.moves = some c' → E.step p m' = some c' := by
  intro p node m' c' hp hm'
  rcases ensureNode_lookup G.nodes c p with heq | ⟨_, _, hsome⟩
  · rw [heq] at hp; exact he p node m' c' hp hm'
  · rw [hsome] at hp; cases hp; simp [olookup] at hm'

theorem ingestStep_node_isSome (G : ChessOpeningDAG) (f m c n p : String)
    (h : olookup p G.nodes ≠ none) :
    olookup p (ingestStep G f m c n).nodes ≠ none :=
  linkMove_isSome _ _ _ _ _ (ensureNode_isSome _ _ _ h)

theorem ingestStep_child_isSome (G : ChessOpeningDAG) (f m c n : String) :
    olookup c (ingestStep G f m c n).nodes ≠ none :=
  linkMove_isSome _ _ _ _ _ (ensureNode_present _ _)

theorem ingestStep_edge_self (G : ChessOpeningDAG) (f m c n : String)
    (h : olookup f G.nodes ≠ none) :
    edgeTarget (ingestStep G f m c n) f m = some c := by
  cases hf1 : olookup f (ensureNode G.nodes c) with
  | none => exact absurd hf1 (ensureNode_isSome _ _ _ h)
  | some node1 =>
    unfold edgeTarget
    show (match olookup f (linkMove (ensureNode G.nodes c) f m c) with
      | none => none
      | some node => olookup m node.moves) = some c
    rw [linkMove_lookup_self _ _ _ _ _ hf1]
    exact olookup_oset_self _ _ _

theorem ingestStep_edge_preserved (E : RulesEngine) (G : ChessOpeningDAG)
    (f m c n p m' c' : String) (he : EdgesWf E G) (hc : E.step f m = some c)
    (h : edgeTarget G p m' = some c') :
    edgeTarget (ingestStep G f m c n) p m' = some c' := by
  unfold edgeTarget at h
  cases hp : olookup p G.nodes with
  | none => rw [hp] at h; cases h
  | some node =>
    rw [hp] at h
    have hp1 : olookup p (ensureNode G.nodes c) = some node :=
      ensureNode_preserves _ _ _ _ hp
    by_cases hpf : p = f
    · subst hpf
      unfold edgeTarget
      show (match olookup p (linkMove (ensureNode G.nodes c) p m c) with
        | none => none
        | some node => olookup m' node.moves) = some c'
      rw [linkMove_lookup_self _ _ _ _ _ hp1]
      by_cases hm : m' = m
      · subst hm
        show olookup m' (oset node.moves m' c) = some c'
        rw [olookup_oset_self]
        have h2 : E.step p m' = some c' := he p node m' c' hp h
        rw [hc] at h2
        exact h2
      · show olookup m' (oset node.moves m c) = some c'
        rw [olookup_oset_of_ne _ _ _ _ hm]
        exact h
    · unfold edgeTarget
      show (match olookup p (linkMove (ensureNode G.nodes c) f m c) with
        | none => none
        | some node => olookup m' node.moves) = some c'
      rw [linkMove_lookup_ne _ _ _ _ _ hpf, hp1]
      exact h

theorem ingestStep_nodesWf (G : ChessOpeningDAG) (f m c n : String)
    (hn : NodesWf G) : NodesWf (ingestStep G f m c n) := by
  intro p node h
  show node.fen = p
  have h' : olookup p (linkMove (ensureNode G.nodes c) f m c) = some node := h
  by_cases hpf : p = f
  · subst hpf
    cases hf1 : olookup p (ensureNode G.nodes c) with
    | none => unfold linkMove at h'; rw [hf1] at h'; rw [h'] at hf1; cases hf1
    | some node1 =>
      rw [linkMove_lookup_self _ _ _ _ _ hf1] at h'
      cases h'
      exact ensureNode_fen G c p node1 hn hf1
  · rw [linkMove_lookup_ne _ _ _ _ _ hpf] at h'
    exact ensureNode_fen G c p node hn h'

theorem ingestStep_edgesWf (E : RulesEngine) (G : ChessOpeningDAG)
    (f m c n : String) (he : EdgesWf E G) (hc : E.step f m = some c) :
    EdgesWf E (ingestStep G f m c n) := by
  intro p node m' c' hp hm'
  have hp' : olookup p (linkMove (ensureNode G.nodes c) f m c) = some node := hp
  by_cases hpf : p = f
  · subst hpf
    cases hf1 : olookup p (ensureNode G.nodes c) with
    | none => unfold linkMove at hp'; rw [hf1] at hp'; rw [hp'] at hf1; cases hf1
    | some node1 =>
      rw [linkMove_lookup_self _ _ _ _ _ hf1] at hp'
      cases hp'
      by_cases hm : m' = m
      · subst hm
        rw [olookup_oset_self] at hm'
        cases hm'
        exact hc
      · rw [olookup_oset_of_ne _ _ _ _ hm] at hm'
        exact ensureNode_edges E G c he p node1 m' c' hf1 hm'
  · rw [linkMove_lookup_ne _ _ _ _ _ hpf] at hp'
    exact ensureNode_edges E G c he p node m' c' hp' hm'

theorem ingestStep_wf (E : RulesEngine) (G : ChessOpeningDAG) (f m c n : String)
    (hw : Wf E G) (hc : E.step f m = some c) : Wf E (ingestStep G f m c n) :=
  ⟨ingestStep_nodesWf G f m c n hw.1, ingestStep_edgesWf E G f m c n hw.2 hc⟩

/-! ### The graph only grows

`DagLe G G'` says every node of `G` is still present in `G'`, every edge of
`G` is still present with the same target, and every label of `G` is still
present, unchanged whenever it was non-empty (an empty-string label is falsy
for the source's `!` test and may be rewritten). -/

def DagLe (G G' : ChessOpeningDAG) : Prop :=
  (∀ p, olookup p G.nodes ≠ none → olookup p G'.nodes ≠ none) ∧
  (∀ p m c, edgeTarget G p m = some c → edgeTarget G' p m = some c) ∧
  (∀ p ℓ, olookup p G.fenToLineName = some ℓ →
    ∃ ν, olookup p G'.fenToLineName = some ν ∧ (ℓ ≠ "" → ν = ℓ))

theorem DagLe.refl (G : ChessOpeningDAG) : DagLe G G :=
  ⟨fun _ h => h, fun _ _ _ h => h, fun _ ℓ h => ⟨ℓ, h, fun _ => rfl⟩⟩

theorem DagLe.trans {G₁ G₂ G₃ : ChessOpeningDAG} (h12 : DagLe G₁ G₂)
    (h23 : DagLe G₂ G₃) : DagLe G₁ G₃ := by
  refine ⟨fun p h => h23.1 p (h12.1 p h), fun p m c h => h23.2.1 p m c (h12.2.1 p m c h), ?_⟩
  intro p ℓ h
  obtain ⟨ν, hν, hkeep⟩ := h12.2.2 p ℓ h
  obtain ⟨ν', hν', hkeep'⟩ := h23.2.2 p ν hν
  by_cases hℓ : ℓ = ""
  · exact ⟨ν', hν', fun hne => absurd hℓ hne⟩
  · have hv : ν = ℓ := hkeep hℓ
    subst hv
    exact ⟨ν', hν', fun _ => hkeep' hℓ⟩

theorem ingestStep_le (E : RulesEngine) (G : ChessOpeningDAG) (f m c n : String)
    (hw : Wf E G) (hc : E.step f m = some c) : DagLe G (ingestStep G f m c n) := by
  refine ⟨fun p h => ingestStep_node_isSome G f m c n p h,
    fun p m' c' h => ingestStep_edge_preserved E G f m c n p m' c' hw.2 hc h, ?_⟩
  intro p ℓ h
  by_cases hp : p = c
  · by_cases hℓ : ℓ = ""
    · subst hℓ
      have hres : olookup p (ingestStep G f m c n).fenToLineName = some n := by
        show olookup p (setLabelIfFalsy G.fenToLineName c n) = some n
        rw [hp] at h ⊢
        rw [setLabelIfFalsy_self, h]
        simp [falsy]
      exact ⟨n, hres, fun hne => absurd rfl hne⟩
    · exact ⟨ℓ, setLabelIfFalsy_nonempty _ _ _ _ _ h hℓ, fun _ => rfl⟩
  · exact ⟨ℓ, by rw [show (ingestStep G f m c n).fenToLineName =
      setLabelIfFalsy G.fenToLineName c n from rfl,
      setLabelIfFalsy_lookup_ne _ _ _ _ hp]; exact h, fun _ => rfl⟩

theorem addLineGo_le (E : RulesEngine) (n : String) :
    ∀ (ms : List String) (G : ChessOpeningDAG) (f : String), Wf E G →
      DagLe G (addLineGo E n G f ms).1 ∧ Wf E (addLineGo E n G f ms).1 := by
  intro ms
  induction ms with
  | nil => intro G f hw; exact ⟨DagLe.refl G, hw⟩
  | cons m ms ih =>
    intro G f hw
    rw [addLineGo]
    cases hc : E.step f m with
    | none => exact ⟨DagLe.refl G, hw⟩
    | some c =>
      have hw1 : Wf E (ingestStep G f m c n) := ingestStep_wf E G f m c n hw hc
      obtain ⟨hle, hwf⟩ := ih (ingestStep G f m c n) c hw1
      exact ⟨(ingestStep_le E G f m c n hw hc).trans hle, hwf⟩

theorem ensureStart_le (G : ChessOpeningDAG) (f0 : String) :
    DagLe G ⟨ensureNode G.nodes f0, G.fenToLineName⟩ := by
  unfold DagLe
  refine ⟨fun p h => ensureNode_isSome _ _ _ h, ?_, fun p ℓ h => ⟨ℓ, h, fun _ => rfl⟩⟩
  intro p m c h
  unfold edgeTarget at h ⊢
  cases hp : olookup p G.nodes with
  | none => rw [hp] at h; cases h
  | some node =>
    rw [hp] at h
    show (match olookup p (ensureNode G.nodes f0) with
      | none => none
      | some node => olookup m node.moves) = some c
    rw [ensureNode_preserves _ _ _ _ hp]
    exact h

theorem ensureStart_wf (E : RulesEngine) (G : ChessOpeningDAG) (f0 : String)
    (hw : Wf E G) : Wf E ⟨ensureNode G.nodes f0, G.fenToLineName⟩ :=
  ⟨fun p node h => ensureNode_fen G f0 p node hw.1 h,
   fun p node m c hp hm => ensureNode_edges E G f0 hw.2 p node m c hp hm⟩

theorem addLine_le (E : RulesEngine) (G : ChessOpeningDAG) (ms : List String)
    (n : String) (hw : Wf E G) :
    DagLe G (addLine E G ms n).1 ∧ Wf E (addLine E G ms n).1 := by
  unfold addLine
  obtain ⟨hle, hwf⟩ := addLineGo_le E n ms ⟨ensureNode G.nodes E.startFen, G.fenToLineName⟩
    E.startFen (ensureStart_wf E G E.startFen hw)
  exact ⟨(ensureStart_le G E.startFen).trans hle, hwf⟩

theorem addLines_le (E : RulesEngine) :
    ∀ (L : List Line) (G : ChessOpeningDAG), Wf E G →
      DagLe G (addLines E G L).1 ∧ Wf E (addLines E G L).1 := by
  intro L
  induction L with
  | nil => intro G hw; exact ⟨DagLe.refl G, hw⟩
  | cons l ls ih =>
    intro G hw
    obtain ⟨hle1, hwf1⟩ := addLine_le E G l.moves l.name hw
    rw [addLines]
    cases h1 : addLine E G l.moves l.name with
    | mk G1 r =>
      rw [h1] at hle1 hwf1
      cases r with
      | none =>
        obtain ⟨hle2, hwf2⟩ := ih G1 hwf1
        exact ⟨hle1.trans hle2, hwf2⟩
      | some e => exact ⟨hle1, hwf1⟩

/-! ### Replaying compiled lines (C1) -/

theorem contains_getNextMoves (G : ChessOpeningDAG) (f m : String) :
    ((getNextMoves G f).contains m = true) ↔ edgeTarget G f m ≠ none := by
  constructor
  · intro h; exact (mem_getNextMoves_iff G f m).mp (List.elem_iff.mp h)
  · intro h; exact List.elem_iff.mpr ((mem_getNextMoves_iff G f m).mpr h)

theorem replayOk_mono (E : RulesEngine) (G G' : ChessOpeningDAG)
    (hle : DagLe G G') :
    ∀ (ms : List String) (f : String),
      replayOk E G f ms = true → replayOk E G' f ms = true := by
  intro ms
  induction ms with
  | nil => intro f _; rfl
  | cons m ms ih =>
    intro f h
    rw [replayOk] at h ⊢
    cases hc : E.step f m with
    | none => rw [hc] at h; cases h
    | some c =>
      rw [hc] at h
      have h' : ((getNextMoves G f).contains m &&
          decide (edgeTarget G f m = some c) && replayOk E G c ms) = true := h
      show ((getNextMoves G' f).contains m &&
          decide (edgeTarget G' f m = some c) && replayOk E G' c ms) = true
      simp only [Bool.and_eq_true, decide_eq_true_eq] at h' ⊢
      obtain ⟨⟨_, h2⟩, h3⟩ := h'
      have hedge : edgeTarget G' f m = some c := hle.2.1 f m c h2
      refine ⟨⟨?_, hedge⟩, ih c h3⟩
      exact (contains_getNextMoves G' f m).mpr (by rw [hedge]; simp)

theorem addLineGo_replay (E : RulesEngine) (n : String) :
    ∀ (ms : List String) (G : ChessOpeningDAG) (f : String)
      (G' : ChessOpeningDAG), Wf E G → olookup f G.nodes ≠ none →
      addLineGo E n G f ms = (G', none) → replayOk E G' f ms = true := by
  intro ms
  induction ms with
  | nil =>
    intro G f G' _ _ h
    cases h
    rfl
  | cons m ms ih =>
    intro G f G' hw hf h
    rw [addLineGo] at h
    rw [replayOk]
    cases hc : E.step f m with
    | none =>
      rw [hc] at h
      have h' : (G, some (⟨m, f⟩ : InvalidMoveError)) =
          (G', (none : Option InvalidMoveError)) := h
      simp [Prod.ext_iff] at h'
    | some c =>
      rw [hc] at h
      have h' : addLineGo E n (ingestStep G f m c n) c ms = (G', none) := h
      have hw1 : Wf E (ingestStep G f m c n) := ingestStep_wf E G f m c n hw hc
      have hc1 : olookup c (ingestStep G f m c n).nodes ≠ none :=
        ingestStep_child_isSome G f m c n
      have hrest : replayOk E G' c ms = true :=
        ih (ingestStep G f m c n) c G' hw1 hc1 h'
      have hle : DagLe (ingestStep G f m c n) G' := by
        have hh := (addLineGo_le E n ms (ingestStep G f m c n) c hw1).1
        rw [h'] at hh
        exact hh
      have hedge : edgeTarget G' f m = some c :=
        hle.2.1 f m c (ingestStep_edge_self G f m c n hf)
      show ((getNextMoves G' f).contains m &&
          decide (edgeTarget G' f m = some c) && replayOk E G' c ms) = true
      simp only [Bool.and_eq_true, decide_eq_true_eq]
      exact ⟨⟨(contains_getNextMoves G' f m).mpr (by rw [hedge]; simp), hedge⟩, hrest⟩

theorem addLine_replay (E : RulesEngine) (G : ChessOpeningDAG) (ms : List String)
    (n : String) (G' : ChessOpeningDAG) (hw : Wf E G)
    (h : addLine E G ms n = (G', none)) :
    replayOk E G' E.startFen ms = true := by
  unfold addLine at h
  exact addLineGo_replay E n ms ⟨ensureNode G.nodes E.startFen, G.fenToLineName⟩
    E.startFen G' (ensureStart_wf E G E.startFen hw)
    (ensureNode_present G.nodes E.startFen) h

theorem addLines_replay (E : RulesEngine) :
    ∀ (L : List Line) (G G' : ChessOpeningDAG), Wf E G →
      addLines E G L = (G', none) →
      ∀ l ∈ L, replayOk E G' E.startFen l.moves = true := by
  intro L
  induction L with
  | nil => intro G G' _ _ l hl; cases hl
  | cons l0 ls ih =>
    intro G G' hw h l hl
    rw [addLines] at h
    cases h1 : addLine E G l0.moves l0.name with
    | mk G1 r =>
      rw [h1] at h
      cases r with
      | some e =>
        have h' : (G1, some e) = (G', (none : Option InvalidMoveError)) := h
        simp [Prod.ext_iff] at h'
      | none =>
        have h' : addLines E G1 ls = (G', none) := h
        have hwf1 : Wf E G1 := by
          have hh := (addLine_le E G l0.moves l0.name hw).2
          rw [h1] at hh
          exact hh
        cases hl with
        | head =>
          have hr1 : replayOk E G1 E.startFen l0.moves = true :=
            addLine_replay E G l0.moves l0.name G1 hw h1
          have hle : DagLe G1 G' := by
            have hh := (addLines_le E ls G1 hwf1).1
            rw [h'] at hh
            exact hh
          exact replayOk_mono E G1 G' hle l0.moves E.startFen hr1
        | tail _ hmem => exact ih G1 G' hwf1 h' l hmem

/-- C1: every line set accepted without error by `addLines` can be replayed:
for each line, starting at the standard starting position, each move is
offered by `getNextMoves` at the current position and its recorded edge
leads exactly to the position the rules engine produces, so traversal from
the root reproduces the whole move sequence. -/
theorem c1_replay (E : RulesEngine) (L : List Line) (G' : ChessOpeningDAG)
    (h : addLines E (initDag E) L = (G', none)) (l : Line) (hl : l ∈ L) :
    replayOk E G' E.startFen l.moves = true :=
  addLines_replay E L (initDag E) G' (initDag_wf E) h l hl

/-! ### A small concrete rules engine for witnesses and counterexamples

Position identifiers are opaque strings for the core, so any deterministic
engine exercises it.  `toyStep` has a transposition: `S -a→ A -c→ P` and
`S -b→ B -d→ P`, with continuations `P -x→ Q` and `P -y→ R`; every other
(position, move) pair is illegal. -/

def toyStep (f m : String) : Option String :=
  if f = "S" && m = "a" then some "A"
  else if f = "S" && m = "b" then some "B"
  else if f = "A" && m = "c" then some "P"
  else if f = "B" && m = "d" then some "P"
  else if f = "P" && m = "x" then some "Q"
  else if f = "P" && m = "y" then some "R"
  else none

def toyEngine : RulesEngine := ⟨"S", toyStep⟩

def toyLineA : Line := ⟨"Alpha", ["a", "c", "x"]⟩

def toyLineB : Line := ⟨"Beta", ["b", "d", "y"]⟩

theorem c1_replay_witness :
    replayOk toyEngine
      (addLines toyEngine (initDag toyEngine) [toyLineA, toyLineB]).1
      toyEngine.startFen toyLineA.moves = true :=
  c1_replay toyEngine [toyLineA, toyLineB]
    (addLines toyEngine (initDag toyEngine) [toyLineA, toyLineB]).1
    (by decide) toyLineA (by decide)

/-! ### Idempotence of ingestion (C2)

A line is `absorbed` in a graph when re-adding it changes nothing: every
step is legal, source and target nodes exist, the edge is recorded, and the
target's label is present — and can only be the empty string if the line's
own name is empty (so the falsy re-write writes the same value back). -/

def absorbed (E : RulesEngine) (n : String) (G : ChessOpeningDAG) :
    String → List String → Prop
  | _, [] => True
  | f, m :: ms => ∃ c,
      E.step f m = some c ∧
      olookup c G.nodes ≠ none ∧
      edgeTarget G f m = some c ∧
      (∃ ℓ, olookup c G.fenToLineName = some ℓ ∧ (ℓ = "" → n = "")) ∧
      absorbed E n G c ms

theorem label_transfer {G G' : ChessOpeningDAG} (hle : DagLe G G') (c n : String)
    (h : ∃ ℓ, olookup c G.fenToLineName = some ℓ ∧ (ℓ = "" → n = "")) :
    ∃ ℓ, olookup c G'.fenToLineName = some ℓ ∧ (ℓ = "" → n = "") := by
  obtain ⟨ℓ, hℓ, himp⟩ := h
  obtain ⟨ν, hν, hkeep⟩ := hle.2.2 c ℓ hℓ
  by_cases he : ℓ = ""
  · exact ⟨ν, hν, fun _ => himp he⟩
  · exact ⟨ν, hν, fun hν0 => absurd (hkeep he ▸ hν0) he⟩

theorem absorbed_mono (E : RulesEngine) (n : String) {G G' : ChessOpeningDAG}
    (hle : DagLe G G') :
    ∀ (ms : List String) (f : String),
      absorbed E n G f ms → absorbed E n G' f ms := by
  intro ms
  induction ms with
  | nil => intro f _; trivial
  | cons m ms ih =>
    intro f h
    obtain ⟨c, hc, hnode, hedge, hlab, hrest⟩ := h
    exact ⟨c, hc, hle.1 c hnode, hle.2.1 f m c hedge,
      label_transfer hle c n hlab, ih c hrest⟩

theorem falsy_eq_false {o : Option String} (h : falsy o = false) :
    ∃ s, o = some s ∧ s ≠ "" := by
  cases o with
  | none => simp [falsy] at h
  | some s =>
    refine ⟨s, rfl, ?_⟩
    simp [falsy] at h
    exact h

theorem addLineGo_absorbs (E : RulesEngine) (n : String) :
    ∀ (ms : List String) (G : ChessOpeningDAG) (f : String)
      (G' : ChessOpeningDAG), Wf E G → olookup f G.nodes ≠ none →
      addLineGo E n G f ms = (G', none) → absorbed E n G' f ms := by
  intro ms
  induction ms with
  | nil => intro G f G' _ _ h; cases h; trivial
  | cons m ms ih =>
    intro G f G' hw hf h
    rw [addLineGo] at h
    cases hc : E.step f m with
    | none =>
      rw [hc] at h
      have h' : (G, some (⟨m, f⟩ : InvalidMoveError)) =
          (G', (none : Option InvalidMoveError)) := h
      simp [Prod.ext_iff] at h'
    | some c =>
      rw [hc] at h
      have h' : addLineGo E n (ingestStep G f m c n) c ms = (G', none) := h
      have hw1 : Wf E (ingestStep G f m c n) := ingestStep_wf E G f m c n hw hc
      have hle : DagLe (ingestStep G f m c n) G' := by
        have hh := (addLineGo_le E n ms (ingestStep G f m c n) c hw1).1
        rw [h'] at hh
        exact hh
      refine ⟨c, hc, hle.1 c (ingestStep_child_isSome G f m c n),
        hle.2.1 f m c (ingestStep_edge_self G f m c n hf),
        label_transfer hle c n ?_,
        ih (ingestStep G f m c n) c G' hw1 (ingestStep_child_isSome G f m c n) h'⟩
      show ∃ ℓ, olookup c (setLabelIfFalsy G.fenToLineName c n) = some ℓ ∧
        (ℓ = "" → n = "")
      rw [setLabelIfFalsy_self]
      cases hfal : falsy (olookup c G.fenToLineName) with
      | true => exact ⟨n, by simp, fun hh => hh⟩
      | false =>
        obtain ⟨s, hs, hsne⟩ := falsy_eq_false hfal
        exact ⟨s, by simp [hs], fun hh => absurd hh hsne⟩

theorem ensureNode_of_present (nodes : List (String × DAGNode)) (c : String)
    (h : olookup c nodes ≠ none) : ensureNode nodes c = nodes := by
  unfold ensureNode
  cases hc : olookup c nodes with
  | some node => rfl
  | none => exact absurd hc h

theorem absorbed_addLineGo_id (E : RulesEngine) (n : String) :
    ∀ (ms : List String) (G : ChessOpeningDAG) (f : String),
      absorbed E n G f ms → olookup f G.nodes ≠ none →
      addLineGo E n G f ms = (G, none) := by
  intro ms
  induction ms with
  | nil => intro G f _ _; rfl
  | cons m ms ih =>
    intro G f h hf
    obtain ⟨c, hc, hcnode, hedge, ⟨ℓ, hℓ, himp⟩, hrest⟩ := h
    obtain ⟨node, hnode, hmove⟩ : ∃ node, olookup f G.nodes = some node ∧
        olookup m node.moves = some c := by
      unfold edgeTarget at hedge
      cases hn : olookup f G.nodes with
      | none => rw [hn] at hedge; cases hedge
      | some node => rw [hn] at hedge; exact ⟨node, rfl, hedge⟩
    have hnodes : linkMove (ensureNode G.nodes c) f m c = G.nodes := by
      rw [ensureNode_of_present G.nodes c hcnode]
      unfold linkMove
      rw [hnode]
      show oset G.nodes f ⟨node.fen, oset node.moves m c⟩ = G.nodes
      rw [oset_of_olookup_eq _ _ _ hmove]
      exact oset_of_olookup_eq _ _ _ hnode
    have hlabels : setLabelIfFalsy G.fenToLineName c n = G.fenToLineName := by
      unfold setLabelIfFalsy
      by_cases hb : falsy (olookup c G.fenToLineName) = true
      · rw [if_pos hb]
        have hℓe : ℓ = "" := by rw [hℓ] at hb; simpa [falsy] using hb
        have hne : n = ℓ := by rw [hℓe]; exact himp hℓe
        rw [hne]
        exact oset_of_olookup_eq _ _ _ hℓ
      · rw [if_neg hb]
    have hstep : ingestStep G f m c n = G := by
      show ChessOpeningDAG.mk (linkMove (ensureNode G.nodes c) f m c)
        (setLabelIfFalsy G.fenToLineName c n) = G
      rw [hnodes, hlabels]
    rw [addLineGo, hc]
    show addLineGo E n (ingestStep G f m c n) c ms = (G, none)
    rw [hstep]
    exact ih G c hrest hcnode

theorem addLine_absorbs (E : RulesEngine) (G : ChessOpeningDAG)
    (ms : List String) (n : String) (G' : ChessOpeningDAG) (hw : Wf E G)
    (h : addLine E G ms n = (G', none)) : absorbed E n G' E.startFen ms := by
  unfold addLine at h
  exact addLineGo_absorbs E n ms ⟨ensureNode G.nodes E.startFen, G.fenToLineName⟩
    E.startFen G' (ensureStart_wf E G E.startFen hw)
    (ensureNode_present G.nodes E.startFen) h

theorem addLine_id (E : RulesEngine) (G : ChessOpeningDAG) (ms : List String)
    (n : String) (habs : absorbed E n G E.startFen ms)
    (hstart : olookup E.startFen G.nodes ≠ none) :
    addLine E G ms n = (G, none) := by
  show addLineGo E n ⟨ensureNode G.nodes E.startFen, G.fenToLineName⟩
    E.startFen ms = (G, none)
  rw [ensureNode_of_present G.nodes E.startFen hstart]
  exact absorbed_addLineGo_id E n ms G E.startFen habs hstart

theorem addLines_absorbs (E : RulesEngine) :
    ∀ (L : List Line) (G G' : ChessOpeningDAG), Wf E G →
      addLines E G L = (G', none) →
      ∀ l ∈ L, absorbed E l.name G' E.startFen l.moves := by
  intro L
  induction L with
  | nil => intro G G' _ _ l hl; cases hl
  | cons l0 ls ih =>
    intro G G' hw h l hl
    rw [addLines] at h
    cases h1 : addLine E G l0.moves l0.name with
    | mk G1 r =>
      rw [h1] at h
      cases r with
      | some e =>
        have h' : (G1, some e) = (G', (none : Option InvalidMoveError)) := h
        simp [Prod.ext_iff] at h'
      | none =>
        have h' : addLines E G1 ls = (G', none) := h
        have hwf1 : Wf E G1 := by
          have hh := (addLine_le E G l0.moves l0.name hw).2
          rw [h1] at hh
          exact hh
        cases hl with
        | head =>
          have habs1 : absorbed E l0.name G1 E.startFen l0.moves :=
            addLine_absorbs E G l0.moves l0.name G1 hw h1
          have hle : DagLe G1 G' := by
            have hh := (addLines_le E ls G1 hwf1).1
            rw [h'] at hh
            exact hh
          exact absorbed_mono E l0.name hle l0.moves E.startFen habs1
        | tail _ hmem => exact ih G1 G' hwf1 h' l hmem

theorem addLines_id (E : RulesEngine) :
    ∀ (L : List Line) (G : ChessOpeningDAG),
      olookup E.startFen G.nodes ≠ none →
      (∀ l ∈ L, absorbed E l.name G E.startFen l.moves) →
      addLines E G L = (G, none) := by
  intro L
  induction L with
  | nil => intro G _ _; rfl
  | cons l0 ls ih =>
    intro G hstart habs
    have h1 : addLine E G l0.moves l0.name = (G, none) :=
      addLine_id E G l0.moves l0.name (habs l0 (List.mem_cons_self l0 ls)) hstart
    rw [addLines, h1]
    exact ih G hstart (fun l hl => habs l (List.mem_cons_of_mem l0 hl))

theorem initDag_start_present (E : RulesEngine) :
    olookup E.startFen (initDag E).nodes ≠ none := by
  show olookup E.startFen
    (oset [] E.startFen (⟨E.startFen, []⟩ : DAGNode)) ≠ none
  rw [olookup_oset_self]
  simp

/-- C2: ingesting the same line set twice is query-equivalent to ingesting
it once — the second `addLines` call leaves the graph unchanged, so
`getNextMoves` and `getCurrentLineName` agree on every position. -/
theorem c2_idempotent (E : RulesEngine) (L : List Line) (G1 : ChessOpeningDAG)
    (h : addLines E (initDag E) L = (G1, none)) :
    addLines E G1 L = (G1, none) ∧
    ∀ f, getNextMoves (addLines E G1 L).1 f = getNextMoves G1 f ∧
      getCurrentLineName (addLines E G1 L).1 f = getCurrentLineName G1 f := by
  have hwf : Wf E G1 := by
    have hh := (addLines_le E L (initDag E) (initDag_wf E)).2
    rw [h] at hh
    exact hh
  have hstart : olookup E.startFen G1.nodes ≠ none := by
    have hle := (addLines_le E L (initDag E) (initDag_wf E)).1
    rw [h] at hle
    exact hle.1 E.startFen (initDag_start_present E)
  have habs := addLines_absorbs E L (initDag E) G1 (initDag_wf E) h
  have hid := addLines_id E L G1 hstart habs
  exact ⟨hid, fun f => by rw [hid]; exact ⟨rfl, rfl⟩⟩

theorem c2_idempotent_witness :
    addLines toyEngine (addLines toyEngine (initDag toyEngine)
        [toyLineA, toyLineB]).1 [toyLineA, toyLineB] =
      ((addLines toyEngine (initDag toyEngine) [toyLineA, toyLineB]).1, none) ∧
    getNextMoves (addLines toyEngine (addLines toyEngine (initDag toyEngine)
        [toyLineA, toyLineB]).1 [toyLineA, toyLineB]).1 "P" =
      getNextMoves (addLines toyEngine (initDag toyEngine)
        [toyLineA, toyLineB]).1 "P" :=
  ⟨(c2_idempotent toyEngine [toyLineA, toyLineB]
      (addLines toyEngine (initDag toyEngine) [toyLineA, toyLineB]).1
      (by decide)).1,
   ((c2_idempotent toyEngine [toyLineA, toyLineB]
      (addLines toyEngine (initDag toyEngine) [toyLineA, toyLineB]).1
      (by decide)).2 "P").1⟩

/-! ### Queries: totality and the random pick (C5, C6) -/

/-- The graph after ingesting the two toy lines; has the transposition node
`"P"` with the two continuations `"x"` and `"y"`. -/
def toyGraph : ChessOpeningDAG :=
  (addLines toyEngine (initDag toyEngine) [toyLineA, toyLineB]).1

/-- C5: `getRandomMove` returns the absent sentinel exactly when
`getNextMoves` is empty, and otherwise returns an element of that exact
set, for any random draw `r` with `0 ≤ r < 1`. -/
theorem c5_random_move (G : ChessOpeningDAG) (fen : String) (r : ℚ)
    (h0 : 0 ≤ r) (h1 : r < 1) :
    (getRandomMove G fen r = none ↔ getNextMoves G fen = []) ∧
    ∀ m, getRandomMove G fen r = some m → m ∈ getNextMoves G fen := by
  have hidx : (getNextMoves G fen).length ≠ 0 →
      Int.toNat ⌊r * ((getNextMoves G fen).length : ℚ)⌋ <
        (getNextMoves G fen).length := by
    intro hn
    have hpos : 0 < (getNextMoves G fen).length := Nat.pos_of_ne_zero hn
    have hlt : ⌊r * ((getNextMoves G fen).length : ℚ)⌋ <
        ((getNextMoves G fen).length : ℤ) := by
      rw [Int.floor_lt]
      push_cast
      calc r * ((getNextMoves G fen).length : ℚ)
          < 1 * ((getNextMoves G fen).length : ℚ) := by
            exact mul_lt_mul_of_pos_right h1 (by exact_mod_cast hpos)
        _ = ((getNextMoves G fen).length : ℚ) := one_mul _
    omega
  constructor
  · constructor
    · intro h
      by_contra hne
      have hn : (getNextMoves G fen).length ≠ 0 :=
        fun hz => hne (List.length_eq_zero.mp hz)
      unfold getRandomMove at h
      rw [if_neg hn, List.getElem?_eq_getElem (hidx hn)] at h
      cases h
    · intro h
      unfold getRandomMove
      rw [h]
      simp
  · intro m h
    unfold getRandomMove at h
    by_cases hn : (getNextMoves G fen).length = 0
    · rw [if_pos hn] at h; cases h
    · rw [if_neg hn] at h
      obtain ⟨hlt, rfl⟩ := List.getElem?_eq_some.mp h
      exact List.getElem_mem _

theorem c5_random_move_witness :
    ((0 : ℚ) ≤ 1 / 2) ∧ ((1 : ℚ) / 2 < 1) ∧
    (getRandomMove toyGraph "P" (1 / 2) = none ↔
      getNextMoves toyGraph "P" = []) :=
  ⟨by norm_num, by norm_num,
   (c5_random_move toyGraph "P" (1 / 2) (by norm_num) (by norm_num)).1⟩

/-!
The `olookup` model reads own properties only.  That is exact for every key
the graph code ever stores (engine-produced positions and moves written by
assignment), but a bare JavaScript property read `obj[k]` also consults the
prototype chain: on a plain `{}` object, keys such as `"toString"` or
`"constructor"` yield a truthy member inherited from `Object.prototype`.
In `getNextMoves`, such a hit passes the `if (!node)` guard and then
`Object.keys(node.moves)` is `Object.keys(undefined)`, which throws a
`TypeError`.  The definitions below enrich the read with the prototype
chain to settle the totality claim against the real behaviour. -/

/-- Own member names of `Object.prototype`, inherited by every plain
object literal; reading any of them on `{}` yields a truthy value (a
function, or `Object.prototype` itself for the `__proto__` accessor). -/
def objectProtoKeys : List String :=
  ["constructor", "hasOwnProperty", "isPrototypeOf", "propertyIsEnumerable",
   "toLocaleString", "toString", "valueOf", "__defineGetter__",
   "__defineSetter__", "__lookupGetter__", "__lookupSetter__", "__proto__"]

/-- Outcome of the JavaScript property read `obj[k]` on a plain object:
an own entry, a truthy member inherited from `Object.prototype`, or
`undefined`. -/
inductive JsRead (α : Type) where
  | own : α → JsRead α
  | inherited : JsRead α
  | undef : JsRead α
  deriving DecidableEq

/-- JavaScript property read `obj[k]` including the prototype chain. -/
def jsGet {α : Type} (l : List (String × α)) (k : String) : JsRead α :=
  match olookup k l with
  | some v => JsRead.own v
  | none => if k ∈ objectProtoKeys then JsRead.inherited else JsRead.undef

/-- Outcome of a query that can throw: a value, or a thrown `TypeError`. -/
inductive JsResult (α : Type) where
  | ok : α → JsResult α
  | typeError : JsResult α
  deriving DecidableEq

/-- `getNextMoves(fen)` with the prototype chain modelled: an inherited
member is truthy, so the `if (!node) return []` guard does not fire and
`Object.keys(node.moves)` evaluates `Object.keys(undefined)`, throwing. -/
def getNextMovesJS (G : ChessOpeningDAG) (fen : String) :
    JsResult (List String) :=
  match jsGet G.nodes fen with
  | JsRead.undef => JsResult.ok []
  | JsRead.own node => JsResult.ok (node.moves.map Prod.fst)
  | JsRead.inherited => JsResult.typeError

/-- `getRandomMove(fen)` with the prototype chain modelled: it calls
`getNextMoves`, so a thrown `TypeError` propagates. -/
def getRandomMoveJS (G : ChessOpeningDAG) (fen : String) (r : ℚ) :
    JsResult (Option String) :=
  match getNextMovesJS G fen with
  | JsResult.typeError => JsResult.typeError
  | JsResult.ok moves =>
      JsResult.ok (if moves.length = 0 then none
        else moves[(Int.toNat ⌊r * (moves.length : ℚ)⌋)]?)

/-- On any key with an own entry, and on any key outside
`Object.prototype`'s member names, the prototype-aware read agrees with the
own-property model used throughout this development. -/
theorem getNextMovesJS_agrees (G : ChessOpeningDAG) (fen : String)
    (h : olookup fen G.nodes ≠ none ∨ fen ∉ objectProtoKeys) :
    getNextMovesJS G fen = JsResult.ok (getNextMoves G fen) := by
  unfold getNextMovesJS jsGet getNextMoves
  cases hf : olookup fen G.nodes with
  | some node => rfl
  | none =>
    rcases h with hown | hproto
    · exact absurd hf hown
    · rw [if_neg hproto]

/-- C6 (amended): for a position identifier with no node in the graph, the
queries return empty/absent without error provided the identifier is not an
inherited `Object.prototype` member name; on such member names (e.g.
`"toString"`) both `getNextMoves` and `getRandomMove` throw a `TypeError`
instead, so the query operations are not total over all string inputs
(`getCurrentLineName`, a bare property read, never throws). -/
theorem c6_total_queries (G : ChessOpeningDAG) (fen : String)
    (h : olookup fen G.nodes = none) :
    (fen ∉ objectProtoKeys →
      getNextMovesJS G fen = JsResult.ok [] ∧
      ∀ r : ℚ, getRandomMoveJS G fen r = JsResult.ok none) ∧
    (fen ∈ objectProtoKeys →
      getNextMovesJS G fen = JsResult.typeError ∧
      ∀ r : ℚ, getRandomMoveJS G fen r = JsResult.typeError) := by
  constructor
  · intro hproto
    have h1 : getNextMovesJS G fen = JsResult.ok [] := by
      unfold getNextMovesJS jsGet
      rw [h, if_neg hproto]
    refine ⟨h1, fun r => ?_⟩
    unfold getRandomMoveJS
    rw [h1]
    simp
  · intro hproto
    have h1 : getNextMovesJS G fen = JsResult.typeError := by
      unfold getNextMovesJS jsGet
      rw [h, if_pos hproto]
    refine ⟨h1, fun r => ?_⟩
    unfold getRandomMoveJS
    rw [h1]

theorem c6_total_queries_witness :
    getNextMovesJS toyGraph "Z" = JsResult.ok [] ∧
    getRandomMoveJS toyGraph "Z" (1 / 3) = JsResult.ok none ∧
    getNextMovesJS toyGraph "toString" = JsResult.typeError :=
  ⟨((c6_total_queries toyGraph "Z" (by decide)).1 (by decide)).1,
   ((c6_total_queries toyGraph "Z" (by decide)).1 (by decide)).2 (1 / 3),
   ((c6_total_queries toyGraph "toString" (by decide)).2 (by decide)).1⟩

/-- C6 counterexample: `"toString"` has no node in the graph — no ingested
line ever reaches it — yet `getNextMoves` does not return an empty set:
the inherited `Object.prototype.toString` is truthy, so the code reaches
`Object.keys(undefined)` and throws a `TypeError`, refuting "total over
all string inputs and never raise". -/
theorem c6_counterexample :
    olookup "toString" toyGraph.nodes = none ∧
    getNextMovesJS toyGraph "toString" ≠ JsResult.ok [] ∧
    getNextMovesJS toyGraph "toString" = JsResult.typeError ∧
    getRandomMoveJS toyGraph "toString" (1 / 3) = JsResult.typeError := by
  refine ⟨by decide, by decide, by decide, ?_⟩
  unfold getRandomMoveJS
  rw [show getNextMovesJS toyGraph "toString" = JsResult.typeError by decide]

/-! ### The root node and its label survive everything (C8, C9) -/

/-- Any sequence of `addLines` calls (each successful or failing), starting
from the freshly constructed graph. -/
def ingestAll (E : RulesEngine) (LL : List (List Line)) : ChessOpeningDAG :=
  LL.foldl (fun G L => (addLines E G L).1) (initDag E)

theorem foldl_addLines_le (E : RulesEngine) :
    ∀ (LL : List (List Line)) (G : ChessOpeningDAG), Wf E G →
      DagLe G (LL.foldl (fun G L => (addLines E G L).1) G) ∧
      Wf E (LL.foldl (fun G L => (addLines E G L).1) G) := by
  intro LL
  induction LL with
  | nil => intro G hw; exact ⟨DagLe.refl G, hw⟩
  | cons L LL ih =>
    intro G hw
    rw [List.foldl_cons]
    obtain ⟨hle1, hwf1⟩ := addLines_le E L G hw
    obtain ⟨hle2, hwf2⟩ := ih (addLines E G L).1 hwf1
    exact ⟨hle1.trans hle2, hwf2⟩

/-- C8: the freshly constructed graph holds exactly one node — the starting
position, with no outgoing moves — and after any sequence of `addLines`
calls (successful or failing) the starting position's node is still
present. -/
theorem c8_root_node (E : RulesEngine) (LL : List (List Line)) :
    (initDag E).nodes = [(E.startFen, ⟨E.startFen, []⟩)] ∧
    olookup E.startFen (ingestAll E LL).nodes ≠ none := by
  refine ⟨rfl, ?_⟩
  have hle := (foldl_addLines_le E LL (initDag E) (initDag_wf E)).1
  exact hle.1 E.startFen (initDag_start_present E)

/-- C9: `getCurrentLineName` at the starting position is `"Root"` after any
sequence of `addLines` calls: the constructor sets it and, being non-empty,
it is never overwritten. -/
theorem c9_root_label (E : RulesEngine) (LL : List (List Line)) :
    getCurrentLineName (ingestAll E LL) E.startFen = some "Root" := by
  have hinit : olookup E.startFen (initDag E).fenToLineName = some "Root" := by
    show olookup E.startFen (oset [] E.startFen "Root") = some "Root"
    exact olookup_oset_self _ _ _
  have hle := (foldl_addLines_le E LL (initDag E) (initDag_wf E)).1
  obtain ⟨ν, hν, hkeep⟩ := hle.2.2 E.startFen "Root" hinit
  show olookup E.startFen
    (LL.foldl (fun G L => (addLines E G L).1) (initDag E)).fenToLineName =
      some "Root"
  rw [hν, hkeep (by decide)]

/-! ### The invalid-move error (C4)

The source throws `new Error("Invalid move '<move>' from FEN: <fen>")`; the
error carries the offending move and the source position — but not the name
of the line being ingested. -/

theorem addLineGo_error (E : RulesEngine) (n : String) :
    ∀ (ms : List String) (G : ChessOpeningDAG) (f : String)
      (G' : ChessOpeningDAG) (e : InvalidMoveError),
      addLineGo E n G f ms = (G', some e) → E.step e.fen e.move = none := by
  intro ms
  induction ms with
  | nil =>
    intro G f G' e h
    have h' : (G, (none : Option InvalidMoveError)) = (G', some e) := h
    simp [Prod.ext_iff] at h'
  | cons m ms ih =>
    intro G f G' e h
    rw [addLineGo] at h
    cases hc : E.step f m with
    | none =>
      rw [hc] at h
      have h' : (G, some (⟨m, f⟩ : InvalidMoveError)) = (G', some e) := h
      rw [Prod.ext_iff] at h'
      have he : (⟨m, f⟩ : InvalidMoveError) = e := by
        have := h'.2
        simpa using this
      rw [← he]
      exact hc
    | some c =>
      rw [hc] at h
      exact ih (ingestStep G f m c n) c G' e h

theorem addLine_error (E : RulesEngine) (G : ChessOpeningDAG) (ms : List String)
    (n : String) (G' : ChessOpeningDAG) (e : InvalidMoveError)
    (h : addLine E G ms n = (G', some e)) : E.step e.fen e.move = none :=
  addLineGo_error E n ms ⟨ensureNode G.nodes E.startFen, G.fenToLineName⟩
    E.startFen G' e h

/-- C4 (amended): when ingestion fails, the error identifies the offending
move and the position it was attempted from — the rules engine indeed
rejects `e.move` from `e.fen` — but it does not carry the line name (see
the counterexample); it is the only error kind and arises only in
`addLine`/`addLines`. -/
theorem c4_invalid_move_error (E : RulesEngine) (G : ChessOpeningDAG)
    (L : List Line) (G' : ChessOpeningDAG) (e : InvalidMoveError)
    (h : addLines E G L = (G', some e)) : E.step e.fen e.move = none := by
  induction L generalizing G with
  | nil =>
    have h' : (G, (none : Option InvalidMoveError)) = (G', some e) := h
    simp [Prod.ext_iff] at h'
  | cons l ls ih =>
    rw [addLines] at h
    cases h1 : addLine E G l.moves l.name with
    | mk G1 r =>
      rw [h1] at h
      cases r with
      | some e0 =>
        have h' : (G1, some e0) = (G', some e) := h
        rw [Prod.ext_iff] at h'
        have he : e0 = e := by have := h'.2; simpa using this
        rw [← he]
        exact addLine_error E G l.moves l.name G1 e0 h1
      | none => exact ih G1 h

theorem c4_invalid_move_error_witness :
    addLines toyEngine (initDag toyEngine) [⟨"Alpha", ["a", "zz"]⟩] =
      ((addLines toyEngine (initDag toyEngine) [⟨"Alpha", ["a", "zz"]⟩]).1,
        some ⟨"zz", "A"⟩) ∧
    toyEngine.step "A" "zz" = none :=
  ⟨by decide,
   c4_invalid_move_error toyEngine (initDag toyEngine)
     [⟨"Alpha", ["a", "zz"]⟩]
     (addLines toyEngine (initDag toyEngine) [⟨"Alpha", ["a", "zz"]⟩]).1
     ⟨"zz", "A"⟩ (by decide)⟩

/-- C4 counterexample: two ingestions differing only in the line's name
produce identical errors, so the raised error cannot identify the name of
the line being ingested — refuting the claim that it identifies all three
of move, line name and position. -/
theorem c4_counterexample :
    (addLines toyEngine (initDag toyEngine) [⟨"Alpha", ["zz"]⟩]).2 =
      (addLines toyEngine (initDag toyEngine) [⟨"Beta", ["zz"]⟩]).2 ∧
    (addLines toyEngine (initDag toyEngine) [⟨"Alpha", ["zz"]⟩]).2 ≠ none ∧
    (⟨"Alpha", ["zz"]⟩ : Line).name ≠ (⟨"Beta", ["zz"]⟩ : Line).name := by
  decide

/-! ### Failure leaves exactly the earlier writes (C7) -/

theorem addLineGo_fail (E : RulesEngine) (n : String) :
    ∀ (ms : List String) (G : ChessOpeningDAG) (f : String)
      (G' : ChessOpeningDAG) (e : InvalidMoveError),
      addLineGo E n G f ms = (G', some e) →
      ∃ k, k < ms.length ∧ addLineGo E n G f (ms.take k) = (G', none) ∧
        ms[k]? = some e.move ∧ E.step e.fen e.move = none := by
  intro ms
  induction ms with
  | nil =>
    intro G f G' e h
    have h' : (G, (none : Option InvalidMoveError)) = (G', some e) := h
    simp [Prod.ext_iff] at h'
  | cons m ms ih =>
    intro G f G' e h
    rw [addLineGo] at h
    cases hc : E.step f m with
    | none =>
      rw [hc] at h
      have h' : (G, some (⟨m, f⟩ : InvalidMoveError)) = (G', some e) := h
      rw [Prod.ext_iff] at h'
      obtain ⟨hG, he⟩ := h'
      have he' : (⟨m, f⟩ : InvalidMoveError) = e := by simpa using he
      refine ⟨0, by simp, ?_, by rw [← he']; simp, by rw [← he']; exact hc⟩
      have hG' : G = G' := hG
      rw [List.take_zero, ← hG']
      rfl
    | some c =>
      rw [hc] at h
      obtain ⟨k, hk, htake, hmove, hstep⟩ :=
        ih (ingestStep G f m c n) c G' e h
      refine ⟨k + 1, by simpa using hk, ?_, by simpa using hmove, hstep⟩
      rw [List.take_succ_cons, addLineGo, hc]
      exact htake

theorem addLine_fail (E : RulesEngine) (G : ChessOpeningDAG) (ms : List String)
    (n : String) (G' : ChessOpeningDAG) (e : InvalidMoveError)
    (h : addLine E G ms n = (G', some e)) :
    ∃ k, k < ms.length ∧ addLine E G (ms.take k) n = (G', none) ∧
      ms[k]? = some e.move ∧ E.step e.fen e.move = none :=
  addLineGo_fail E n ms ⟨ensureNode G.nodes E.startFen, G.fenToLineName⟩
    E.startFen G' e h

theorem addLines_fail (E : RulesEngine) :
    ∀ (L : List Line) (G G' : ChessOpeningDAG) (e : InvalidMoveError),
      Wf E G → addLines E G L = (G', some e) →
      ∃ i l G1 k, L[i]? = some l ∧
        addLines E G (L.take i) = (G1, none) ∧
        k < l.moves.length ∧
        addLine E G1 (l.moves.take k) l.name = (G', none) ∧
        l.moves[k]? = some e.move ∧
        E.step e.fen e.move = none ∧
        DagLe G1 G' := by
  intro L
  induction L with
  | nil =>
    intro G G' e _ h
    have h' : (G, (none : Option InvalidMoveError)) = (G', some e) := h
    simp [Prod.ext_iff] at h'
  | cons l0 ls ih =>
    intro G G' e hw h
    rw [addLines] at h
    cases h1 : addLine E G l0.moves l0.name with
    | mk G1 r =>
      rw [h1] at h
      cases r with
      | some e0 =>
        have h' : (G1, some e0) = (G', some e) := h
        rw [Prod.ext_iff] at h'
        obtain ⟨hG, heq⟩ := h'
        have he' : e0 = e := by simpa using heq
        subst he'
        subst hG
        obtain ⟨k, hk, htake, hmove, hstep⟩ :=
          addLine_fail E G l0.moves l0.name G1 e0 h1
        refine ⟨0, l0, G, k, by simp, rfl, hk, htake, hmove, hstep, ?_⟩
        have hle := (addLine_le E G (l0.moves.take k) l0.name hw).1
        rw [htake] at hle
        exact hle
      | none =>
        have h' : addLines E G1 ls = (G', some e) := h
        have hwf1 : Wf E G1 := by
          have hh := (addLine_le E G l0.moves l0.name hw).2
          rw [h1] at hh
          exact hh
        obtain ⟨i, l, G2, k, hidx, hpre, hk, htake, hmove, hstep, hle⟩ :=
          ih G1 G' e hwf1 h'
        refine ⟨i + 1, l, G2, k, by simpa using hidx, ?_, hk, htake, hmove,
          hstep, hle⟩
        rw [List.take_succ_cons, addLines, h1]
        exact hpre

/-- C7 (amended): if `addLines` fails with an error, the resulting graph is
exactly the graph obtained by successfully ingesting all earlier lines and
then the failing line's moves before the failing one — so nothing derived
from the failing move onwards is added — and the pre-failure graph only
grows (`DagLe`): every node and edge written earlier remains, and every
non-empty label remains unchanged.  An empty-string label written by a prior
line may however be overwritten by the failing line's earlier moves (see
the counterexample), which is what the original claim overlooks. -/
theorem c7_partial_state (E : RulesEngine) (L : List Line)
    (G' : ChessOpeningDAG) (e : InvalidMoveError)
    (h : addLines E (initDag E) L = (G', some e)) :
    ∃ i l G1 k, L[i]? = some l ∧
      addLines E (initDag E) (L.take i) = (G1, none) ∧
      k < l.moves.length ∧
      addLine E G1 (l.moves.take k) l.name = (G', none) ∧
      l.moves[k]? = some e.move ∧
      E.step e.fen e.move = none ∧
      DagLe G1 G' :=
  addLines_fail E L (initDag E) G' e (initDag_wf E) h

theorem c7_partial_state_witness :
    ∃ i l G1 k,
      ([⟨"", ["a"]⟩, ⟨"Gamma", ["a", "zz"]⟩] : List Line)[i]? = some l ∧
      addLines toyEngine (initDag toyEngine)
        (([⟨"", ["a"]⟩, ⟨"Gamma", ["a", "zz"]⟩] : List Line).take i) =
        (G1, none) ∧
      k < l.moves.length ∧
      addLine toyEngine G1 (l.moves.take k) l.name =
        ((addLines toyEngine (initDag toyEngine)
          [⟨"", ["a"]⟩, ⟨"Gamma", ["a", "zz"]⟩]).1, none) ∧
      l.moves[k]? = some (⟨"zz", "A"⟩ : InvalidMoveError).move ∧
      toyEngine.step (⟨"zz", "A"⟩ : InvalidMoveError).fen
        (⟨"zz", "A"⟩ : InvalidMoveError).move = none ∧
      DagLe G1 (addLines toyEngine (initDag toyEngine)
        [⟨"", ["a"]⟩, ⟨"Gamma", ["a", "zz"]⟩]).1 :=
  c7_partial_state toyEngine [⟨"", ["a"]⟩, ⟨"Gamma", ["a", "zz"]⟩]
    (addLines toyEngine (initDag toyEngine)
      [⟨"", ["a"]⟩, ⟨"Gamma", ["a", "zz"]⟩]).1
    ⟨"zz", "A"⟩ (by decide)

/-- C7 counterexample: the first line (named `""`) labels the position after
`a` with `""`; the second line replays through that position and then fails
at `zz` — yet the label written by the previously ingested line has been
overwritten to `"Gamma"`, refuting "every label written by previously
ingested lines remains unchanged". -/
theorem c7_counterexample :
    getCurrentLineName (addLines toyEngine (initDag toyEngine)
        [⟨"", ["a"]⟩]).1 "A" = some "" ∧
    (addLines toyEngine (initDag toyEngine)
        [⟨"", ["a"]⟩, ⟨"Gamma", ["a", "zz"]⟩]).2 ≠ none ∧
    getCurrentLineName (addLines toyEngine (initDag toyEngine)
        [⟨"", ["a"]⟩, ⟨"Gamma", ["a", "zz"]⟩]).1 "A" = some "Gamma" := by
  decide

/-! ### Label writing: falsy means unset (C10) -/

theorem setLabelIfFalsy_self_keep (labels : List (String × String)) (c n : String)
    (h : olookup c labels = some n) :
    olookup c (setLabelIfFalsy labels c n) = some n := by
  unfold setLabelIfFalsy
  split
  · exact olookup_oset_self _ _ _
  · exact h

theorem addLineGo_label_self_stable (E : RulesEngine) (n : String) :
    ∀ (ms : List String) (G : ChessOpeningDAG) (f p : String),
      olookup p G.fenToLineName = some n →
      olookup p (addLineGo E n G f ms).1.fenToLineName = some n := by
  intro ms
  induction ms with
  | nil => intro G f p h; exact h
  | cons m ms ih =>
    intro G f p h
    rw [addLineGo]
    cases hc : E.step f m with
    | none => exact h
    | some c =>
      apply ih
      show olookup p (setLabelIfFalsy G.fenToLineName c n) = some n
      by_cases hp : p = c
      · subst hp
        exact setLabelIfFalsy_self_keep _ _ _ h
      · rw [setLabelIfFalsy_lookup_ne _ _ _ _ hp]
        exact h

theorem addLineGo_label_write (E : RulesEngine) (n : String) :
    ∀ (ms : List String) (G : ChessOpeningDAG) (f p : String),
      falsy (olookup p G.fenToLineName) = true →
      p ∈ pathFens E f ms →
      olookup p (addLineGo E n G f ms).1.fenToLineName = some n := by
  intro ms
  induction ms with
  | nil => intro G f p _ hp; cases hp
  | cons m ms ih =>
    intro G f p hfal hp
    rw [pathFens] at hp
    rw [addLineGo]
    cases hc : E.step f m with
    | none => rw [hc] at hp; cases hp
    | some c =>
      rw [hc] at hp
      by_cases hpc : p = c
      · apply addLineGo_label_self_stable
        show olookup p (setLabelIfFalsy G.fenToLineName c n) = some n
        rw [hpc] at hfal ⊢
        rw [setLabelIfFalsy_self, if_pos hfal]
      · have hp' : p ∈ pathFens E c ms := by
          cases hp with
          | head => exact absurd rfl hpc
          | tail _ hmem => exact hmem
        apply ih
        · show falsy (olookup p (setLabelIfFalsy G.fenToLineName c n)) = true
          rw [setLabelIfFalsy_lookup_ne _ _ _ _ hpc]
          exact hfal
        · exact hp'

theorem addLine_label_write (E : RulesEngine) (G : ChessOpeningDAG)
    (ms : List String) (n p : String)
    (hfal : falsy (olookup p G.fenToLineName) = true)
    (hp : p ∈ pathFens E E.startFen ms) :
    olookup p (addLine E G ms n).1.fenToLineName = some n :=
  addLineGo_label_write E n ms ⟨ensureNode G.nodes E.startFen, G.fenToLineName⟩
    E.startFen p hfal hp

/-- All labels in the graph are non-empty strings. -/
def LabelsNonempty (G : ChessOpeningDAG) : Prop :=
  ∀ p ℓ, olookup p G.fenToLineName = some ℓ → ℓ ≠ ""

theorem setLabelIfFalsy_labelsNonempty (labels : List (String × String))
    (c n : String) (hn : n ≠ "")
    (h : ∀ p ℓ, olookup p labels = some ℓ → ℓ ≠ "") :
    ∀ p ℓ, olookup p (setLabelIfFalsy labels c n) = some ℓ → ℓ ≠ "" := by
  intro p ℓ hp
  by_cases hpc : p = c
  · subst hpc
    rw [setLabelIfFalsy_self] at hp
    split at hp
    · cases hp; exact hn
    · exact h p ℓ hp
  · rw [setLabelIfFalsy_lookup_ne _ _ _ _ hpc] at hp
    exact h p ℓ hp

theorem addLineGo_labelsNonempty (E : RulesEngine) (n : String) (hn : n ≠ "") :
    ∀ (ms : List String) (G : ChessOpeningDAG) (f : String),
      LabelsNonempty G → LabelsNonempty (addLineGo E n G f ms).1 := by
  intro ms
  induction ms with
  | nil => intro G f h; exact h
  | cons m ms ih =>
    intro G f h
    rw [addLineGo]
    cases hc : E.step f m with
    | none => exact h
    | some c =>
      apply ih
      exact setLabelIfFalsy_labelsNonempty G.fenToLineName c n hn h

theorem addLines_labelsNonempty (E : RulesEngine) :
    ∀ (L : List Line) (G : ChessOpeningDAG), (∀ l ∈ L, l.name ≠ "") →
      LabelsNonempty G → LabelsNonempty (addLines E G L).1 := by
  intro L
  induction L with
  | nil => intro G _ h; exact h
  | cons l0 ls ih =>
    intro G hnames h
    rw [addLines]
    cases h1 : addLine E G l0.moves l0.name with
    | mk G1 r =>
      have h1' : LabelsNonempty G1 := by
        have hh : LabelsNonempty (addLine E G l0.moves l0.name).1 :=
          addLineGo_labelsNonempty E l0.name
            (hnames l0 (List.mem_cons_self l0 ls)) l0.moves
            ⟨ensureNode G.nodes E.startFen, G.fenToLineName⟩ E.startFen h
        rw [h1] at hh
        exact hh
      cases r with
      | none => exact ih G1 (fun l hl => hnames l (List.mem_cons_of_mem l0 hl)) h1'
      | some e => exact h1'

theorem initDag_labelsNonempty (E : RulesEngine) :
    LabelsNonempty (initDag E) := by
  intro p ℓ h
  have h' : olookup p (oset [] E.startFen "Root") = some ℓ := h
  by_cases hp : p = E.startFen
  · subst hp
    rw [olookup_oset_self] at h'
    cases h'
    decide
  · rw [olookup_oset_of_ne _ _ _ _ hp] at h'
    cases h'

theorem ingestAll_labelsNonempty (E : RulesEngine) (LL : List (List Line))
    (h : ∀ L ∈ LL, ∀ l ∈ L, l.name ≠ "") :
    LabelsNonempty (ingestAll E LL) := by
  suffices hgen : ∀ (LL : List (List Line)) (G : ChessOpeningDAG),
      (∀ L ∈ LL, ∀ l ∈ L, l.name ≠ "") → LabelsNonempty G →
      LabelsNonempty (LL.foldl (fun G L => (addLines E G L).1) G) by
    exact hgen LL (initDag E) h (initDag_labelsNonempty E)
  intro LL'
  induction LL' with
  | nil => intro G _ h'; exact h'
  | cons L0 LLs ih =>
    intro G hnames h'
    rw [List.foldl_cons]
    exact ih (addLines E G L0).1
      (fun L hL => hnames L (List.mem_cons_of_mem L0 hL))
      (addLines_labelsNonempty E L0 G
        (hnames L0 (List.mem_cons_self L0 LLs)) h')

/-- C10: the falsy test treats the empty string as unset — a line replaying
through a position whose label is absent or `""` writes its own name there —
and consequently, when every ingested line's name is non-empty, a label,
once set (after some of the `addLines` calls), is never overwritten by
later calls. -/
theorem c10_label_overwrite (E : RulesEngine) (G : ChessOpeningDAG)
    (ms : List String) (n p : String) (LL1 LL2 : List (List Line))
    (ℓ : String) :
    (falsy (getCurrentLineName G p) = true →
      p ∈ pathFens E E.startFen ms →
      getCurrentLineName (addLine E G ms n).1 p = some n) ∧
    ((∀ L ∈ LL1 ++ LL2, ∀ l ∈ L, l.name ≠ "") →
      getCurrentLineName (ingestAll E LL1) p = some ℓ →
      getCurrentLineName (ingestAll E (LL1 ++ LL2)) p = some ℓ) := by
  constructor
  · intro hfal hp
    exact addLine_label_write E G ms n p hfal hp
  · intro hnames hset
    have hnames1 : ∀ L ∈ LL1, ∀ l ∈ L, l.name ≠ "" :=
      fun L hL => hnames L (List.mem_append_left LL2 hL)
    have hℓne : ℓ ≠ "" :=
      ingestAll_labelsNonempty E LL1 hnames1 p ℓ hset
    have hwf1 : Wf E (ingestAll E LL1) :=
      (foldl_addLines_le E LL1 (initDag E) (initDag_wf E)).2
    have hle : DagLe (ingestAll E LL1) (ingestAll E (LL1 ++ LL2)) := by
      show DagLe (ingestAll E LL1)
        ((LL1 ++ LL2).foldl (fun G L => (addLines E G L).1) (initDag E))
      rw [List.foldl_append]
      exact (foldl_addLines_le E LL2 (ingestAll E LL1) hwf1).1
    obtain ⟨ν, hν, hkeep⟩ := hle.2.2 p ℓ hset
    show olookup p (ingestAll E (LL1 ++ LL2)).fenToLineName = some ℓ
    rw [hν, hkeep hℓne]

theorem c10_label_overwrite_witness :
    (getCurrentLineName (addLine toyEngine
        (addLines toyEngine (initDag toyEngine) [⟨"", ["a"]⟩]).1
        ["a", "c"] "Delta").1 "A" = some "Delta") ∧
    (getCurrentLineName (ingestAll toyEngine [[toyLineA], [toyLineB]]) "A" =
      some "Alpha") :=
  ⟨(c10_label_overwrite toyEngine
      (addLines toyEngine (initDag toyEngine) [⟨"", ["a"]⟩]).1
      ["a", "c"] "Delta" "A" [[toyLineA]] [[toyLineB]] "Alpha").1
      (by decide) (by decide),
   (c10_label_overwrite toyEngine
      (addLines toyEngine (initDag toyEngine) [⟨"", ["a"]⟩]).1
      ["a", "c"] "Delta" "A" [[toyLineA]] [[toyLineB]] "Alpha").2
      (by decide) (by decide)⟩

/-! ### Transposition collapse (C3)

Soundness: every edge of the built graph lies on the replay path of some
ingested line.  Completeness: every continuation of a successfully ingested
line is an edge.  Together: `getNextMoves` at a position is exactly the
union of the ingested lines' continuations from that position. -/

theorem edgeTarget_of_lookup_none (G : ChessOpeningDAG) (p m : String)
    (h : olookup p G.nodes = none) : edgeTarget G p m = none := by
  unfold edgeTarget
  rw [h]

theorem edgeTarget_of_lookup_some (G : ChessOpeningDAG) (p m : String)
    (node : DAGNode) (h : olookup p G.nodes = some node) :
    edgeTarget G p m = olookup m node.moves := by
  unfold edgeTarget
  rw [h]

theorem ingestStep_edges_from (G : ChessOpeningDAG) (f m c n p m' : String)
    (h : edgeTarget (ingestStep G f m c n) p m' ≠ none) :
    edgeTarget G p m' ≠ none ∨ (p = f ∧ m' = m) := by
  by_cases hpf : p = f
  · subst hpf
    cases hf1 : olookup p (ensureNode G.nodes c) with
    | none =>
      exfalso
      apply h
      apply edgeTarget_of_lookup_none
      show olookup p (linkMove (ensureNode G.nodes c) p m c) = none
      unfold linkMove
      rw [hf1]
      exact hf1
    | some node1 =>
      have hl : olookup p (ingestStep G p m c n).nodes =
          some ⟨node1.fen, oset node1.moves m c⟩ :=
        linkMove_lookup_self _ _ _ _ _ hf1
      have h' : olookup m' (oset node1.moves m c) ≠ none := by
        rw [edgeTarget_of_lookup_some _ _ _ _ hl] at h
        exact h
      by_cases hm : m' = m
      · exact Or.inr ⟨rfl, hm⟩
      · rw [olookup_oset_of_ne _ _ _ _ hm] at h'
        rcases ensureNode_lookup G.nodes c p with heq | ⟨_, _, hsome⟩
        · rw [heq] at hf1
          left
          rw [edgeTarget_of_lookup_some _ _ _ _ hf1]
          exact h'
        · rw [hsome] at hf1
          cases hf1
          simp [olookup] at h'
  · have hlp : olookup p (ingestStep G f m c n).nodes =
        olookup p (ensureNode G.nodes c) :=
      linkMove_lookup_ne _ _ _ _ _ hpf
    rcases ensureNode_lookup G.nodes c p with heq | ⟨_, _, hsome⟩
    · left
      cases hp : olookup p G.nodes with
      | none =>
        exfalso
        apply h
        apply edgeTarget_of_lookup_none
        rw [hlp, heq]
        exact hp
      | some node =>
        rw [edgeTarget_of_lookup_some _ _ _ _
          (show olookup p (ingestStep G f m c n).nodes = some node by
            rw [hlp, heq]; exact hp)] at h
        rw [edgeTarget_of_lookup_some _ _ _ _ hp]
        exact h
    · exfalso
      apply h
      rw [edgeTarget_of_lookup_some _ _ _ _
        (show olookup p (ingestStep G f m c n).nodes = some ⟨c, []⟩ by
          rw [hlp]; exact hsome)]
      rfl

theorem addLineGo_edges (E : RulesEngine) (n : String) :
    ∀ (ms : List String) (G : ChessOpeningDAG) (f : String)
      (res : ChessOpeningDAG × Option InvalidMoveError),
      addLineGo E n G f ms = res →
      ∀ p m', edgeTarget res.1 p m' ≠ none →
        edgeTarget G p m' ≠ none ∨
          (p, m') ∈ (f :: pathFens E f ms).zip ms := by
  intro ms
  induction ms with
  | nil =>
    intro G f res h p m' he
    rw [← h] at he
    exact Or.inl he
  | cons m ms ih =>
    intro G f res h p m' he
    rw [addLineGo] at h
    rw [pathFens]
    cases hc : E.step f m with
    | none =>
      rw [hc] at h
      rw [← h] at he
      exact Or.inl he
    | some c =>
      rw [hc] at h
      have h' : addLineGo E n (ingestStep G f m c n) c ms = res := h
      rcases ih (ingestStep G f m c n) c res h' p m' he with hin | hmem
      · rcases ingestStep_edges_from G f m c n p m' hin with hold | ⟨hp, hm⟩
        · exact Or.inl hold
        · right
          rw [List.zip_cons_cons]
          rw [hp, hm]
          exact List.mem_cons_self _ _
      · right
        rw [List.zip_cons_cons]
        exact List.mem_cons_of_mem _ hmem

theorem ensureStart_edges_from (G : ChessOpeningDAG) (f0 p m' : String)
    (h : edgeTarget ⟨ensureNode G.nodes f0, G.fenToLineName⟩ p m' ≠ none) :
    edgeTarget G p m' ≠ none := by
  rcases ensureNode_lookup G.nodes f0 p with heq | ⟨_, _, hsome⟩
  · cases hp : olookup p G.nodes with
    | none =>
      exfalso
      apply h
      apply edgeTarget_of_lookup_none
      show olookup p (ensureNode G.nodes f0) = none
      rw [heq]
      exact hp
    | some node =>
      rw [edgeTarget_of_lookup_some _ _ _ _
        (show olookup p
            (⟨ensureNode G.nodes f0, G.fenToLineName⟩ :
              ChessOpeningDAG).nodes = some node by
          show olookup p (ensureNode G.nodes f0) = some node
          rw [heq]; exact hp)] at h
      rw [edgeTarget_of_lookup_some _ _ _ _ hp]
      exact h
  · exfalso
    apply h
    rw [edgeTarget_of_lookup_some _ _ _ _
      (show olookup p
          (⟨ensureNode G.nodes f0, G.fenToLineName⟩ :
            ChessOpeningDAG).nodes = some ⟨f0, []⟩ from hsome)]
    rfl

theorem addLine_edges (E : RulesEngine) (G : ChessOpeningDAG)
    (ms : List String) (n : String)
    (res : ChessOpeningDAG × Option InvalidMoveError)
    (h : addLine E G ms n = res) :
    ∀ p m', edgeTarget res.1 p m' ≠ none →
      edgeTarget G p m' ≠ none ∨
        (p, m') ∈ (E.startFen :: pathFens E E.startFen ms).zip ms := by
  intro p m' he
  rcases addLineGo_edges E n ms
    ⟨ensureNode G.nodes E.startFen, G.fenToLineName⟩ E.startFen res h p m' he
    with hin | hmem
  · exact Or.inl (ensureStart_edges_from G E.startFen p m' hin)
  · exact Or.inr hmem

theorem mem_contsAt_of_zip (E : RulesEngine) (p f m' : String)
    (ms : List String)
    (h : (p, m') ∈ (f :: pathFens E f ms).zip ms) :
    m' ∈ contsAt E p f ms := by
  unfold contsAt
  rw [List.mem_filterMap]
  exact ⟨(p, m'), h, by simp⟩

theorem addLines_edges (E : RulesEngine) :
    ∀ (L : List Line) (G : ChessOpeningDAG)
      (res : ChessOpeningDAG × Option InvalidMoveError),
      addLines E G L = res →
      ∀ p m', edgeTarget res.1 p m' ≠ none →
        edgeTarget G p m' ≠ none ∨
          ∃ l ∈ L, m' ∈ contsAt E p E.startFen l.moves := by
  intro L
  induction L with
  | nil =>
    intro G res h p m' he
    rw [← h] at he
    exact Or.inl he
  | cons l0 ls ih =>
    intro G res h p m' he
    rw [addLines] at h
    cases h1 : addLine E G l0.moves l0.name with
    | mk G1 r =>
      rw [h1] at h
      cases r with
      | none =>
        have h' : addLines E G1 ls = res := h
        rcases ih G1 res h' p m' he with hin | ⟨l, hl, hcont⟩
        · rcases addLine_edges E G l0.moves l0.name (G1, none) h1 p m' hin
            with hold | hzip
          · exact Or.inl hold
          · exact Or.inr ⟨l0, List.mem_cons_self l0 ls,
              mem_contsAt_of_zip E p E.startFen m' l0.moves hzip⟩
        · exact Or.inr ⟨l, List.mem_cons_of_mem l0 hl, hcont⟩
      | some e =>
        have h' : (G1, some e) = res := h
        rw [← h'] at he
        rcases addLine_edges E G l0.moves l0.name (G1, some e) h1 p m' he
          with hold | hzip
        · exact Or.inl hold
        · exact Or.inr ⟨l0, List.mem_cons_self l0 ls,
            mem_contsAt_of_zip E p E.startFen m' l0.moves hzip⟩

theorem initDag_edgeTarget (E : RulesEngine) (p m : String) :
    edgeTarget (initDag E) p m = none := by
  cases hp : olookup p (initDag E).nodes with
  | none => exact edgeTarget_of_lookup_none _ _ _ hp
  | some node =>
    rw [edgeTarget_of_lookup_some _ _ _ _ hp]
    have hnode : node = ⟨E.startFen, []⟩ := by
      have hp' : olookup p
          (oset [] E.startFen (⟨E.startFen, []⟩ : DAGNode)) = some node := hp
      by_cases hps : p = E.startFen
      · rw [hps, olookup_oset_self] at hp'
        exact (Option.some.inj hp').symm
      · rw [olookup_oset_of_ne _ _ _ _ hps] at hp'
        cases hp'
    rw [hnode]
    rfl

theorem replay_contsAt_edge (E : RulesEngine) (G : ChessOpeningDAG) :
    ∀ (ms : List String) (f p m' : String), replayOk E G f ms = true →
      m' ∈ contsAt E p f ms → edgeTarget G p m' ≠ none := by
  intro ms
  induction ms with
  | nil =>
    intro f p m' _ hm
    unfold contsAt at hm
    simp at hm
  | cons m ms ih =>
    intro f p m' hr hm
    rw [replayOk] at hr
    unfold contsAt at hm
    rw [pathFens] at hm
    cases hc : E.step f m with
    | none => rw [hc] at hr; cases hr
    | some c =>
      rw [hc] at hr hm
      have hr' : ((getNextMoves G f).contains m &&
          decide (edgeTarget G f m = some c) && replayOk E G c ms) = true := hr
      simp only [Bool.and_eq_true, decide_eq_true_eq] at hr'
      obtain ⟨⟨_, hedge⟩, hrest⟩ := hr'
      rw [List.mem_filterMap] at hm
      obtain ⟨q, hq, hfq⟩ := hm
      rw [List.zip_cons_cons] at hq
      cases hq with
      | head =>
        simp only at hfq
        by_cases hfp : f = p
        · rw [if_pos hfp] at hfq
          cases hfq
          rw [← hfp]
          rw [hedge]
          simp
        · rw [if_neg hfp] at hfq
          cases hfq
      | tail _ hq' =>
        apply ih c p m' hrest
        unfold contsAt
        rw [List.mem_filterMap]
        exact ⟨q, hq', hfq⟩

theorem initDag_label_ne (E : RulesEngine) (p : String) (h : p ≠ E.startFen) :
    olookup p (initDag E).fenToLineName = none := by
  show olookup p (oset [] E.startFen "Root") = none
  rw [olookup_oset_of_ne _ _ _ _ h]
  rfl

/-- C3 (amended): when exactly the two lines are ingested and both replay
through the position `p` (a transposition when their paths differ), the
moves offered at `p` are exactly the union of the two lines' continuations
from `p` — unconditionally; and `getCurrentLineName` at `p` is the
first-ingested line's name provided that name is non-empty (and `p` is not
the start position, whose label is the sentinel) — an empty-string name
counts as unset for the falsy check and can be overwritten by the later
line (see the counterexample). -/
theorem c3_transposition (E : RulesEngine) (l1 l2 : Line)
    (G' : ChessOpeningDAG) (p : String)
    (hok : addLines E (initDag E) [l1, l2] = (G', none))
    (hp1 : p ∈ pathFens E E.startFen l1.moves)
    (hp2 : p ∈ pathFens E E.startFen l2.moves) :
    (∀ m, m ∈ getNextMoves G' p ↔
      (m ∈ contsAt E p E.startFen l1.moves ∨
       m ∈ contsAt E p E.startFen l2.moves)) ∧
    (p ≠ E.startFen → l1.name ≠ "" →
      getCurrentLineName G' p = some l1.name) := by
  constructor
  · intro m
    constructor
    · intro hm
      have he := (mem_getNextMoves_iff G' p m).mp hm
      rcases addLines_edges E [l1, l2] (initDag E) (G', none) hok p m he
        with h0 | ⟨l, hl, hcont⟩
      · exact absurd (initDag_edgeTarget E p m) h0
      · cases hl with
        | head => exact Or.inl hcont
        | tail _ hl' =>
          cases hl' with
          | head => exact Or.inr hcont
          | tail _ hmem => cases hmem
    · intro hm
      have hrep : ∀ l ∈ [l1, l2], replayOk E G' E.startFen l.moves = true :=
        addLines_replay E [l1, l2] (initDag E) G' (initDag_wf E) hok
      rcases hm with h1 | h2
      · exact (mem_getNextMoves_iff G' p m).mpr
          (replay_contsAt_edge E G' l1.moves E.startFen p m
            (hrep l1 (by simp)) h1)
      · exact (mem_getNextMoves_iff G' p m).mpr
          (replay_contsAt_edge E G' l2.moves E.startFen p m
            (hrep l2 (by simp)) h2)
  · intro hps hn1
    have hok0 := hok
    rw [addLines] at hok0
    cases h1 : addLine E (initDag E) l1.moves l1.name with
    | mk G1 r1 =>
      rw [h1] at hok0
      cases r1 with
      | some e =>
        have h' : (G1, some e) = (G', (none : Option InvalidMoveError)) := hok0
        simp [Prod.ext_iff] at h'
      | none =>
        have hok1 : addLines E G1 [l2] = (G', none) := hok0
        have hwf1 : Wf E G1 := by
          have hh := (addLine_le E (initDag E) l1.moves l1.name
            (initDag_wf E)).2
          rw [h1] at hh
          exact hh
        have hlab1 : olookup p G1.fenToLineName = some l1.name := by
          have hh := addLine_label_write E (initDag E) l1.moves l1.name p
            (by rw [initDag_label_ne E p hps]; rfl) hp1
          rw [h1] at hh
          exact hh
        have hle : DagLe G1 G' := by
          have hh := (addLines_le E [l2] G1 hwf1).1
          rw [hok1] at hh
          exact hh
        obtain ⟨ν, hν, hkeep⟩ := hle.2.2 p l1.name hlab1
        show olookup p G'.fenToLineName = some l1.name
        rw [hν, hkeep hn1]

theorem c3_transposition_witness :
    ("y" ∈ getNextMoves toyGraph "P" ↔
      ("y" ∈ contsAt toyEngine "P" toyEngine.startFen toyLineA.moves ∨
       "y" ∈ contsAt toyEngine "P" toyEngine.startFen toyLineB.moves)) ∧
    getCurrentLineName toyGraph "P" = some "Alpha" :=
  ⟨(c3_transposition toyEngine toyLineA toyLineB toyGraph "P"
      (by decide) (by decide) (by decide)).1 "y",
   (c3_transposition toyEngine toyLineA toyLineB toyGraph "P"
      (by decide) (by decide) (by decide)).2 (by decide) (by decide)⟩

/-- C3 counterexample: two lines reach `"P"` by different paths; the first
ingested line's name is the empty string, and after ingestion the label at
`"P"` is the second line's name — so the label is not "whichever of the two
lines was ingested first", and a set label was overwritten. -/
theorem c3_counterexample :
    (addLines toyEngine (initDag toyEngine)
        [⟨"", ["a", "c"]⟩, ⟨"Beta", ["b", "d"]⟩]).2 = none ∧
    "P" ∈ pathFens toyEngine "S" ["a", "c"] ∧
    "P" ∈ pathFens toyEngine "S" ["b", "d"] ∧
    getCurrentLineName (addLines toyEngine (initDag toyEngine)
        [⟨"", ["a", "c"]⟩, ⟨"Beta", ["b", "d"]⟩]).1 "P" = some "Beta" ∧
    (⟨"", ["a", "c"]⟩ : Line).name ≠ "Beta" := by
  decide

end ChessOpenings
